import Mathlib

/-!
Verification of the `compute_H` routine from `compute_H_example.py`.

The routine computes the derivative amplitude H(t) = |zeta'(1/2 + i t)| by a
five-point Richardson-extrapolated central difference, using mpmath
arbitrary-precision arithmetic at 50 decimal digits.

Embedding choices, fixed throughout this development:
 - every mpmath number (`mpf`) is a binary floating-point number, hence a
   rational; we model `mpf` values as rationals and `mpc` values as pairs of
   rationals (`MPC`), treating the 50-digit arithmetic as exact (the standard
   arbitrary-precision idealisation);
 - the external zeta evaluator (`mp_zeta`, the sole external collaborator) is
   an abstract parameter `zeta : MPC → MPC`;
 - the final `float(abs(derivative))` is the real magnitude, with the
   conversion to double modelled as exact;
 - mpmath raises `ZeroDivisionError` on division by a zero `mpf`; the
   `Except`-valued variant `computeD` captures exactly this error path;
 - the inputs `t` and `h` arrive as Python doubles, hence rationals.  The
   Python expression `h/2` on line 32 is IEEE-754 double halving: exact
   except at odd multiples of 2^(-1074) (bottom-range values with odd
   2^(-1074)-multiplier), where it rounds to the nearest multiple of
   2^(-1074) with ties to even.  The main model computes the second step
   scalar with `pyHalf`, which implements exactly this halving on rationals;
   the `Dbl` model renders the same halving on the significand-exponent
   representation of nonnegative doubles, and the two agree on every valid
   double (`pyHalf_coheres`).
-/

/-- Arbitrary-precision complex value (mpmath `mpc`): a pair of rationals,
the exact model of a pair of binary floating-point reals. -/
structure MPC where
  re : ℚ
  im : ℚ
deriving DecidableEq

/-- Componentwise addition of `mpc` values. -/
def MPC.add (x y : MPC) : MPC := ⟨x.re + y.re, x.im + y.im⟩

/-- Componentwise subtraction of `mpc` values. -/
def MPC.sub (x y : MPC) : MPC := ⟨x.re - y.re, x.im - y.im⟩

/-- Multiplication of an `mpc` value by a real (rational) scalar, as in `4 * d2`. -/
def MPC.smul (q : ℚ) (x : MPC) : MPC := ⟨q * x.re, q * x.im⟩

/-- Division of an `mpc` value by a real (rational) scalar, as in `/ (2 * h1)`.
Total version: at a zero scalar both components are the junk value 0; the
raising behaviour of mpmath is captured separately by `MPC.divqE`. -/
def MPC.divq (x : MPC) (q : ℚ) : MPC := ⟨x.re / q, x.im / q⟩

/-- Squared magnitude of an `mpc` value, a rational. -/
def MPC.normSq (x : MPC) : ℚ := x.re ^ 2 + x.im ^ 2

/-- Magnitude `abs(z)` of an `mpc` value (a nonnegative real). -/
noncomputable def MPC.abs (x : MPC) : ℝ := Real.sqrt (x.normSq : ℝ)

/-- Interpretation of an `mpc` value as the complex number it denotes. -/
def MPC.toC (x : MPC) : ℂ := ⟨(x.re : ℝ), (x.im : ℝ)⟩

/-- Error raised by the routine: mpmath division by a zero `mpf` raises
`ZeroDivisionError`. -/
inductive Err where
  | zeroDivision
deriving DecidableEq

/-- Checked scalar division: mpmath raises `ZeroDivisionError` when the
divisor is the zero `mpf`. -/
def MPC.divqE (x : MPC) (q : ℚ) : Except Err MPC :=
  if q = 0 then Except.error Err.zeroDivision else Except.ok (x.divq q)

/-- Round-to-nearest integer of x / 2, ties to even: the rounding IEEE-754
applies to the 2^(-1074)-multiplier of a double when its half leaves the
representable grid.  For even x this is the exact half; for odd x the two
nearest integers are equidistant and the even one is chosen. -/
def roundHalfEvenZ (x : ℤ) : ℤ :=
  if x % 2 = 0 then x / 2
  else if (x / 2) % 2 = 0 then x / 2 else x / 2 + 1

/-- The Python expression `h/2` on line 32: IEEE-754 double halving of the
double h.  Every finite double is an integer multiple of 2^(-1074); its half
is again a double (halving is exact) unless that integer is odd - h in the
bottom range with odd 2^(-1074)-multiplier - in which case the half is
rounded to the nearest multiple of 2^(-1074), ties to even.  On rationals
that are not doubles (the integrality test fails) the function falls back to
the exact half; such inputs cannot arise from a Python double.  On valid
nonnegative doubles this agrees with the representation-level `Dbl.half`
(`pyHalf_coheres`), and it is odd-symmetric (`pyHalf_neg`), matching IEEE
halving of negative doubles. -/
def pyHalf (h : ℚ) : ℚ :=
  let x : ℚ := 2 ^ (1074 : ℕ) * h
  if x.den = 1 ∧ x.num % 2 ≠ 0 then
    (roundHalfEvenZ x.num : ℚ) / 2 ^ (1074 : ℕ)
  else h / 2

/-- Embedding of the body of `compute_H` (lines 31-43) up to `derivative`,
with total division.  Mirrors the source line by line:
`s = mp.mpc(0.5, t)`; `h1, h2 = mp.mpf(h), mp.mpf(h/2)` (the Python double
halving `h/2` rendered exactly by `pyHalf`, the mpf conversions exact);
the four zeta evaluations; the two central differences; the extrapolation. -/
def computeDeriv (zeta : MPC → MPC) (t h : ℚ) : MPC :=
  let s : MPC := ⟨1/2, t⟩
  let h1 : ℚ := h
  let h2 : ℚ := pyHalf h
  let f_p_h1 := zeta (s.add ⟨0, h1⟩)
  let f_m_h1 := zeta (s.sub ⟨0, h1⟩)
  let d1 := (f_p_h1.sub f_m_h1).divq (2 * h1)
  let f_p_h2 := zeta (s.add ⟨0, h2⟩)
  let f_m_h2 := zeta (s.sub ⟨0, h2⟩)
  let d2 := (f_p_h2.sub f_m_h2).divq (2 * h2)
  ((MPC.smul 4 d2).sub d1).divq 3

/-- Embedding of `compute_H(t, h)`: the value `float(abs(derivative))`
returned on line 44, with the conversion to double modelled as exact. -/
noncomputable def compute_H (zeta : MPC → MPC) (t h : ℚ) : ℝ :=
  (computeDeriv zeta t h).abs

/-- Embedding of `compute_H` with the mpmath error semantics: each scalar
division raises `ZeroDivisionError` on a zero divisor, and the exception
aborts the rest of the body, exactly as in Python. -/
def computeD (zeta : MPC → MPC) (t h : ℚ) : Except Err MPC := do
  let s : MPC := ⟨1/2, t⟩
  let h1 : ℚ := h
  let h2 : ℚ := pyHalf h
  let f_p_h1 := zeta (s.add ⟨0, h1⟩)
  let f_m_h1 := zeta (s.sub ⟨0, h1⟩)
  let d1 ← (f_p_h1.sub f_m_h1).divqE (2 * h1)
  let f_p_h2 := zeta (s.add ⟨0, h2⟩)
  let f_m_h2 := zeta (s.sub ⟨0, h2⟩)
  let d2 ← (f_p_h2.sub f_m_h2).divqE (2 * h2)
  let derivative ← ((MPC.smul 4 d2).sub d1).divqE 3
  return derivative

/-- Full run of `compute_H` with error semantics: magnitude of the derivative
on success. -/
noncomputable def computeHRun (zeta : MPC → MPC) (t h : ℚ) : Except Err ℝ :=
  (computeD zeta t h).map MPC.abs

/-- Module-level precision configuration, line 13: `mp.dps = 50`. -/
def mpDps : ℕ := 50

/-- Explicit-state translation of a `compute_H` call under the global
precision context: the body of `compute_H` contains no assignment to
`mp.dps` (or to any other global), so the context threads through a call
unchanged. -/
noncomputable def computeHWithCtx (dps : ℕ) (zeta : MPC → MPC) (t h : ℚ) :
    ℝ × ℕ :=
  (compute_H zeta t h, dps)

section Helpers

lemma toC_add (x y : MPC) : (x.add y).toC = x.toC + y.toC := by
  simp [MPC.add, MPC.toC, Complex.ext_iff]

lemma toC_sub (x y : MPC) : (x.sub y).toC = x.toC - y.toC := by
  simp [MPC.sub, MPC.toC, Complex.ext_iff]

lemma toC_smul (q : ℚ) (x : MPC) : (MPC.smul q x).toC = (q : ℂ) * x.toC := by
  simp [MPC.smul, MPC.toC, Complex.ext_iff, Complex.mul_re, Complex.mul_im]

lemma toC_divq (x : MPC) (q : ℚ) : (x.divq q).toC = x.toC / (q : ℂ) := by
  rw [Complex.div_ratCast]
  simp [MPC.divq, MPC.toC]

lemma abs_toC (x : MPC) : x.abs = Complex.abs x.toC := by
  rw [Complex.abs_apply, MPC.abs, MPC.normSq, Complex.normSq_apply, MPC.toC]
  push_cast
  ring_nf

lemma add_probe (t δ : ℚ) : MPC.add ⟨1/2, t⟩ ⟨0, δ⟩ = ⟨1/2, t + δ⟩ := by
  simp [MPC.add]

lemma sub_probe (t δ : ℚ) : MPC.sub ⟨1/2, t⟩ ⟨0, δ⟩ = ⟨1/2, t - δ⟩ := by
  simp [MPC.sub]

lemma roundHalfEvenZ_neg (x : ℤ) : roundHalfEvenZ (-x) = -roundHalfEvenZ x := by
  simp only [roundHalfEvenZ]
  split_ifs <;> omega

lemma pyHalf_neg (h : ℚ) : pyHalf (-h) = -pyHalf h := by
  simp only [pyHalf, mul_neg]
  by_cases hc : ((2 ^ (1074 : ℕ) * h : ℚ)).den = 1 ∧
      ((2 ^ (1074 : ℕ) * h : ℚ)).num % 2 ≠ 0
  · have hc' : (-(2 ^ (1074 : ℕ) * h : ℚ)).den = 1 ∧
        (-(2 ^ (1074 : ℕ) * h : ℚ)).num % 2 ≠ 0 := by
      rw [Rat.den_neg_eq_den, Rat.num_neg_eq_neg_num]
      exact ⟨hc.1, by omega⟩
    rw [if_pos hc, if_pos hc', Rat.num_neg_eq_neg_num, roundHalfEvenZ_neg]
    push_cast
    ring
  · have hc' : ¬((-(2 ^ (1074 : ℕ) * h : ℚ)).den = 1 ∧
        (-(2 ^ (1074 : ℕ) * h : ℚ)).num % 2 ≠ 0) := by
      rw [Rat.den_neg_eq_den, Rat.num_neg_eq_neg_num]
      intro hand
      exact hc ⟨hand.1, by omega⟩
    rw [if_neg hc, if_neg hc']
    ring

lemma pyHalf_one : pyHalf 1 = 1 / 2 := by
  have hcast : (2 ^ (1074 : ℕ) * 1 : ℚ) = ((2 ^ (1074 : ℕ) : ℤ) : ℚ) := by
    push_cast
    ring
  have hmod : (2 ^ (1074 : ℕ) : ℤ) % 2 = 0 :=
    Int.emod_eq_zero_of_dvd (dvd_pow_self 2 (by norm_num))
  simp [pyHalf, hcast, hmod]

lemma computeDeriv_toC (zeta : MPC → MPC) (t h : ℚ)
    (hrep : pyHalf h = h / 2) :
    (computeDeriv zeta t h).toC =
      (4 * (((zeta ⟨1/2, t + h/2⟩).toC - (zeta ⟨1/2, t - h/2⟩).toC)
              / (2 * ((h : ℂ) / 2)))
        - ((zeta ⟨1/2, t + h⟩).toC - (zeta ⟨1/2, t - h⟩).toC)
              / (2 * (h : ℂ))) / 3 := by
  simp only [computeDeriv, hrep, add_probe, sub_probe, toC_divq, toC_sub,
    toC_smul]
  push_cast
  ring

end Helpers

/-- C3: `compute_H` is deterministic: two calls with identical arguments
under the same fixed precision context yield identical results. -/
theorem compute_H_deterministic (zeta : MPC → MPC) (t₁ h₁ t₂ h₂ : ℚ)
    (ht : t₁ = t₂) (hh : h₁ = h₂) :
    compute_H zeta t₁ h₁ = compute_H zeta t₂ h₂ := by
  rw [ht, hh]

theorem compute_H_deterministic_witness :
    compute_H (fun z => z) 0 1 = compute_H (fun z => z) 0 1 :=
  compute_H_deterministic (fun z => z) 0 1 0 1 rfl rfl

/-- C5: the module sets the precision context to 50 once at initialisation
(line 13), and a `compute_H` call never mutates it: the explicit-state
translation returns the context unchanged for every call. -/
theorem compute_H_preserves_precision_ctx :
    mpDps = 50 ∧
      ∀ (dps : ℕ) (zeta : MPC → MPC) (t h : ℚ),
        (computeHWithCtx dps zeta t h).2 = dps :=
  ⟨rfl, fun _ _ _ _ => rfl⟩

/-- Sign of the scalar divisor cancels against swapping the difference. -/
lemma divq_neg_sub (x y : MPC) (q : ℚ) :
    (x.sub y).divq (-q) = (y.sub x).divq q := by
  simp only [MPC.sub, MPC.divq, MPC.mk.injEq]
  constructor <;> · rw [div_neg, ← neg_div, neg_sub]

/-- The derivative estimate is an even function of the step size. -/
lemma computeDeriv_neg (zeta : MPC → MPC) (t h : ℚ) :
    computeDeriv zeta t (-h) = computeDeriv zeta t h := by
  have e1 : ∀ δ : ℚ, MPC.add ⟨1/2, t⟩ ⟨0, -δ⟩ = MPC.sub ⟨1/2, t⟩ ⟨0, δ⟩ := by
    intro δ
    simp [MPC.add, MPC.sub, sub_eq_add_neg]
  have e2 : ∀ δ : ℚ, MPC.sub ⟨1/2, t⟩ ⟨0, -δ⟩ = MPC.add ⟨1/2, t⟩ ⟨0, δ⟩ := by
    intro δ
    simp [MPC.add, MPC.sub, sub_eq_add_neg]
  have e3 : pyHalf (-h) = -pyHalf h := pyHalf_neg h
  have e4 : ∀ q : ℚ, 2 * (-q) = -(2 * q) := fun q => by ring
  simp only [computeDeriv, e3, e1, e2, e4, divq_neg_sub]

/-- C9: `compute_H` is an even function of the step size: for every t and
nonzero h, the sign of h cancels in both central-difference quotients, so
`compute_H(t, -h) = compute_H(t, h)` exactly. -/
theorem compute_H_even_in_h (zeta : MPC → MPC) (t h : ℚ) (_hh : h ≠ 0) :
    compute_H zeta t (-h) = compute_H zeta t h := by
  unfold compute_H
  rw [computeDeriv_neg]

theorem compute_H_even_in_h_witness :
    compute_H (fun z => z) 0 (-1) = compute_H (fun z => z) 0 1 :=
  compute_H_even_in_h (fun z => z) 0 1 one_ne_zero

/-- C10: for every t, a call with h = 0 does not return a value: the first
central-difference division divides by 2 * h1 = 0, which is unguarded, so
the run aborts with a division-by-zero error before any result is
produced. -/
theorem compute_H_zero_step_raises (zeta : MPC → MPC) (t : ℚ) :
    computeD zeta t 0 = Except.error Err.zeroDivision := by
  simp only [computeD, MPC.divqE, mul_zero, if_pos rfl]
  rfl

/-- Nonnegative finite IEEE-754 double represented as a significand times a
power of two, value m * 2^e.  Every positive double has such a
representation with m < 2^53 and e ≥ -1074 (the subnormal ulp scale). -/
structure Dbl where
  m : ℕ
  e : ℤ
deriving DecidableEq

/-- Representation invariant for a nonnegative finite double. -/
def Dbl.Valid (x : Dbl) : Prop := x.m < 2 ^ 53 ∧ -1074 ≤ x.e

/-- The rational value denoted by a double. -/
def Dbl.toRat (x : Dbl) : ℚ := (x.m : ℚ) * (2 : ℚ) ^ x.e

/-- Round-to-nearest of m / 2 to a natural number, ties to even: the
rounding IEEE-754 applies to the significand when halving at the bottom
exponent. -/
def roundHalfToEven (m : ℕ) : ℕ :=
  if m % 2 = 0 then m / 2
  else if (m / 2) % 2 = 0 then m / 2 else m / 2 + 1

/-- IEEE-754 double halving, the Python expression `h/2` on line 32 applied
to a nonnegative finite double: dividing by two decrements the exponent and
is exact while the exponent stays in range; at the bottom exponent -1074 the
halved significand is rounded to nearest, ties to even. -/
def Dbl.half (x : Dbl) : Dbl :=
  if -1074 < x.e then ⟨x.m, x.e - 1⟩ else ⟨roundHalfToEven x.m, x.e⟩

/-- The two renderings of the significand rounding agree. -/
lemma roundHalfEvenZ_natCast (m : ℕ) :
    roundHalfEvenZ (m : ℤ) = (roundHalfToEven m : ℤ) := by
  simp only [roundHalfEvenZ, roundHalfToEven]
  split_ifs <;> omega

/-- Coherence of the two halving models: on the rational value of every
valid nonnegative double, the value-level halving `pyHalf` used by the main
model agrees with the representation-level IEEE halving `Dbl.half`. -/
lemma pyHalf_coheres (x : Dbl) (hv : x.Valid) :
    pyHalf x.toRat = (Dbl.half x).toRat := by
  obtain ⟨m, e⟩ := x
  have he : (-1074 : ℤ) ≤ e := hv.2
  have hpow : (2 : ℚ) ^ (1074 : ℕ) * (2 : ℚ) ^ e
      = (2 : ℚ) ^ ((e + 1074).toNat : ℕ) := by
    rw [← zpow_natCast (2 : ℚ) (1074 : ℕ),
      ← zpow_natCast (2 : ℚ) ((e + 1074).toNat), ← zpow_add₀ (two_ne_zero)]
    congr 1
    omega
  have harg : Dbl.toRat ⟨m, e⟩ = (m : ℚ) * (2 : ℚ) ^ e := rfl
  have hkey : (2 ^ (1074 : ℕ) * ((m : ℚ) * (2 : ℚ) ^ e) : ℚ)
      = (((m * 2 ^ (e + 1074).toNat : ℕ) : ℤ) : ℚ) := by
    push_cast
    rw [← hpow]
    ring
  rw [harg]
  simp only [pyHalf, hkey, Rat.den_intCast, Rat.num_intCast]
  by_cases hodd : ((m * 2 ^ (e + 1074).toNat : ℕ) : ℤ) % 2 ≠ 0
  · have ht0 : (e + 1074).toNat = 0 := by
      by_contra hne
      apply hodd
      have hdvd : 2 ∣ m * 2 ^ (e + 1074).toNat :=
        Dvd.dvd.mul_left (dvd_pow_self 2 hne) m
      exact Int.emod_eq_zero_of_dvd (by exact_mod_cast hdvd)
    have hee : e = -1074 := by omega
    have hhalf : Dbl.half ⟨m, e⟩ = ⟨roundHalfToEven m, e⟩ := by
      rw [Dbl.half, if_neg (by omega : ¬(-1074 : ℤ) < e)]
    have h2c : (2 : ℚ) ^ (-1074 : ℤ) = ((2 : ℚ) ^ (1074 : ℕ))⁻¹ := by
      have hn : ((1074 : ℕ) : ℤ) = (1074 : ℤ) := by norm_num
      rw [← hn, zpow_neg, zpow_natCast]
    rw [if_pos ⟨by norm_num, hodd⟩, hhalf,
      show Dbl.toRat ⟨roundHalfToEven m, e⟩
        = (roundHalfToEven m : ℚ) * (2 : ℚ) ^ e from rfl]
    rw [ht0] at hodd ⊢
    simp only [pow_zero, mul_one] at hodd ⊢
    rw [roundHalfEvenZ_natCast, hee, h2c]
    push_cast
    ring
  · rw [if_neg (fun hand => hodd hand.2)]
    by_cases hegt : (-1074 : ℤ) < e
    · have hhalf : Dbl.half ⟨m, e⟩ = ⟨m, e - 1⟩ := by
        rw [Dbl.half, if_pos hegt]
      rw [hhalf,
        show Dbl.toRat ⟨m, e - 1⟩ = (m : ℚ) * (2 : ℚ) ^ (e - 1) from rfl,
        zpow_sub_one₀ (two_ne_zero)]
      ring
    · have ht0 : (e + 1074).toNat = 0 := by omega
      rw [ht0] at hodd
      simp only [pow_zero, mul_one] at hodd
      have hmev : m % 2 = 0 := by omega
      have hhalf : Dbl.half ⟨m, e⟩ = ⟨roundHalfToEven m, e⟩ := by
        rw [Dbl.half, if_neg hegt]
      rw [hhalf,
        show Dbl.toRat ⟨roundHalfToEven m, e⟩
          = (roundHalfToEven m : ℚ) * (2 : ℚ) ^ e from rfl]
      simp only [roundHalfToEven, if_pos hmev]
      rw [Nat.cast_div (Nat.dvd_of_mod_eq_zero hmev) (two_ne_zero)]
      ring

/-- C7 counterexample: the claim says mp.mpf(h/2) = mp.mpf(h)/2 for every
finite double h, but at the smallest positive double h = 2^(-1074) the
Python halving h/2 rounds to 0 (tie to even), while mp.mpf(h)/2 is the
exact 2^(-1075). -/
theorem half_subnormal_counterexample :
    Dbl.Valid ⟨1, -1074⟩ ∧
      (Dbl.half ⟨1, -1074⟩).toRat ≠ Dbl.toRat ⟨1, -1074⟩ / 2 := by
  constructor
  · exact ⟨by norm_num, le_refl _⟩
  · have hlhs : (Dbl.half ⟨1, -1074⟩).toRat = 0 := by
      simp [Dbl.half, roundHalfToEven, Dbl.toRat]
    have hrhs : Dbl.toRat ⟨1, -1074⟩ / 2 = (2 : ℚ) ^ (-1074 : ℤ) / 2 := by
      simp [Dbl.toRat]
    rw [hlhs, hrhs]
    have hpos : (0 : ℚ) < (2 : ℚ) ^ (-1074 : ℤ) := zpow_pos (by norm_num) _
    exact fun hcon => absurd hcon.symm (ne_of_gt (half_pos hpos))

/-- C7 amended: the step scalars satisfy h1 = h always, and h2 = h1 / 2
exactly whenever the halved double h/2 is exactly representable, i.e. for
every double h = m * 2^e with e > -1074 or with an even significand at the
bottom exponent e = -1074; it fails only for odd multiples of 2^(-1074)
(bottom subnormals), where the halving rounds (ties to even). -/
theorem half_exact_when_representable (x : Dbl) (_hv : x.Valid)
    (hrep : -1074 < x.e ∨ x.m % 2 = 0) :
    (Dbl.half x).toRat = x.toRat / 2 := by
  rcases hrep with he | hm
  · rw [Dbl.half, if_pos he, Dbl.toRat, Dbl.toRat]
    simp only
    rw [zpow_sub_one₀ (two_ne_zero)]
    ring
  · rw [Dbl.half]
    by_cases he : -1074 < x.e
    · rw [if_pos he, Dbl.toRat, Dbl.toRat]
      simp only
      rw [zpow_sub_one₀ (two_ne_zero)]
      ring
    · rw [if_neg he, Dbl.toRat, Dbl.toRat]
      simp only [roundHalfToEven, if_pos hm]
      rw [Nat.cast_div (Nat.dvd_of_mod_eq_zero hm) (two_ne_zero)]
      ring

theorem half_exact_when_representable_witness :
    (Dbl.half ⟨1, -1073⟩).toRat = Dbl.toRat ⟨1, -1073⟩ / 2 :=
  half_exact_when_representable ⟨1, -1073⟩ ⟨by norm_num, by norm_num⟩
    (Or.inl (by norm_num))

/-- Degree-four polynomial in the step offset, the fourth-order Taylor model
of the zeta evaluator along the critical line used to state the smoothness
hypothesis of the convergence-order claim. -/
noncomputable def taylorPoly (a0 a1 a2 a3 a4 : ℂ) (δ : ℚ) : ℂ :=
  a0 + a1 * (δ : ℂ) + a2 * (δ : ℂ) ^ 2 + a3 * (δ : ℂ) ^ 3 + a4 * (δ : ℂ) ^ 4

/-- C8: fourth-order convergence of the Richardson extrapolation.  If, near
t, the evaluator agrees with a degree-4 Taylor polynomial of the offset up
to a remainder bounded by C |offset|^5 (the spec's smoothness idealisation,
with true derivative magnitude M = |a1|), then for every step 0 < h ≤ h0
the error of `compute_H` is at most (5/12) C h^4: the h^2 truncation term of
the plain central difference is cancelled exactly, leaving an O(h^4)
bound. -/
theorem richardson_fourth_order (zeta : MPC → MPC) (t h h0 : ℚ) (C : ℝ)
    (a0 a1 a2 a3 a4 : ℂ) (_hC : 0 ≤ C) (hh : 0 < h) (hh0 : h ≤ h0)
    (hrep : pyHalf h = h / 2)
    (htay : ∀ δ : ℚ, |δ| ≤ h0 →
      Complex.abs ((zeta ⟨1/2, t + δ⟩).toC - taylorPoly a0 a1 a2 a3 a4 δ)
        ≤ C * |(δ : ℝ)| ^ 5) :
    |compute_H zeta t h - Complex.abs a1| ≤ 5 / 12 * C * (h : ℝ) ^ 4 := by
  have hhR : (0 : ℝ) < (h : ℝ) := by exact_mod_cast hh
  have hzc0 : ((h : ℚ) : ℂ) ≠ 0 := by
    exact_mod_cast ne_of_gt hh
  have hE1 := htay h (by rw [abs_of_pos hh]; exact hh0)
  have hE2 := htay (-h) (by rw [abs_neg, abs_of_pos hh]; exact hh0)
  have hE3 := htay (h / 2) (by rw [abs_of_pos (half_pos hh)]; linarith)
  have hE4 := htay (-(h / 2)) (by rw [abs_neg, abs_of_pos (half_pos hh)]; linarith)
  rw [show t + -h = t - h from (sub_eq_add_neg t h).symm] at hE2
  rw [show t + -(h / 2) = t - h / 2 from (sub_eq_add_neg t (h / 2)).symm] at hE4
  have hcast_h : |((h : ℚ) : ℝ)| = (h : ℝ) := abs_of_pos hhR
  have hcast_nh : |((-h : ℚ) : ℝ)| = (h : ℝ) := by
    push_cast
    rw [abs_neg, abs_of_pos hhR]
  have hcast_h2 : |((h / 2 : ℚ) : ℝ)| = (h : ℝ) / 2 := by
    push_cast
    rw [abs_of_pos (by positivity)]
  have hcast_nh2 : |((-(h / 2) : ℚ) : ℝ)| = (h : ℝ) / 2 := by
    push_cast
    rw [abs_neg, abs_of_pos (by positivity)]
  rw [hcast_h] at hE1
  rw [hcast_nh] at hE2
  rw [hcast_h2] at hE3
  rw [hcast_nh2] at hE4
  have habs_h_c : Complex.abs ((h : ℚ) : ℂ) = (h : ℝ) := by
    rw [← Complex.ofReal_ratCast, Complex.abs_ofReal, abs_of_pos hhR]
  have hkey : (computeDeriv zeta t h).toC - a1 =
      (4 * ((((zeta ⟨1/2, t + h / 2⟩).toC - taylorPoly a0 a1 a2 a3 a4 (h / 2))
              - ((zeta ⟨1/2, t - h / 2⟩).toC - taylorPoly a0 a1 a2 a3 a4 (-(h / 2))))
            / ((h : ℚ) : ℂ))
        - (((zeta ⟨1/2, t + h⟩).toC - taylorPoly a0 a1 a2 a3 a4 h)
              - ((zeta ⟨1/2, t - h⟩).toC - taylorPoly a0 a1 a2 a3 a4 (-h)))
            / (2 * ((h : ℚ) : ℂ))) / 3 := by
    rw [computeDeriv_toC zeta t h hrep]
    simp only [taylorPoly]
    push_cast
    field_simp
    ring
  have htri1 : Complex.abs
      (((zeta ⟨1/2, t + h⟩).toC - taylorPoly a0 a1 a2 a3 a4 h)
        - ((zeta ⟨1/2, t - h⟩).toC - taylorPoly a0 a1 a2 a3 a4 (-h)))
      ≤ C * (h : ℝ) ^ 5 + C * (h : ℝ) ^ 5 :=
    le_trans (Complex.abs.sub_le_add _ _) (add_le_add hE1 hE2)
  have htri2 : Complex.abs
      (((zeta ⟨1/2, t + h / 2⟩).toC - taylorPoly a0 a1 a2 a3 a4 (h / 2))
        - ((zeta ⟨1/2, t - h / 2⟩).toC - taylorPoly a0 a1 a2 a3 a4 (-(h / 2))))
      ≤ C * ((h : ℝ) / 2) ^ 5 + C * ((h : ℝ) / 2) ^ 5 :=
    le_trans (Complex.abs.sub_le_add _ _) (add_le_add hE3 hE4)
  have hT1 : Complex.abs
      ((((zeta ⟨1/2, t + h⟩).toC - taylorPoly a0 a1 a2 a3 a4 h)
          - ((zeta ⟨1/2, t - h⟩).toC - taylorPoly a0 a1 a2 a3 a4 (-h)))
        / (2 * ((h : ℚ) : ℂ)))
      ≤ C * (h : ℝ) ^ 4 := by
    rw [map_div₀, map_mul, Complex.abs_two, habs_h_c,
      div_le_iff₀ (by positivity)]
    exact le_trans htri1 (le_of_eq (by ring))
  have hT2 : Complex.abs
      ((((zeta ⟨1/2, t + h / 2⟩).toC - taylorPoly a0 a1 a2 a3 a4 (h / 2))
          - ((zeta ⟨1/2, t - h / 2⟩).toC - taylorPoly a0 a1 a2 a3 a4 (-(h / 2))))
        / ((h : ℚ) : ℂ))
      ≤ C * (h : ℝ) ^ 4 / 16 := by
    rw [map_div₀, habs_h_c, div_le_iff₀ hhR]
    exact le_trans htri2 (le_of_eq (by ring))
  have hmain : Complex.abs ((computeDeriv zeta t h).toC - a1)
      ≤ (4 * (C * (h : ℝ) ^ 4 / 16) + C * (h : ℝ) ^ 4) / 3 := by
    rw [hkey, map_div₀, Complex.abs_ofNat,
      div_le_div_iff_of_pos_right (by norm_num : (0 : ℝ) < 3)]
    refine le_trans (Complex.abs.sub_le_add _ _) ?_
    rw [map_mul, Complex.abs_ofNat]
    exact add_le_add (mul_le_mul_of_nonneg_left hT2 (by norm_num)) hT1
  have hfinal : |compute_H zeta t h - Complex.abs a1|
      ≤ (4 * (C * (h : ℝ) ^ 4 / 16) + C * (h : ℝ) ^ 4) / 3 := by
    unfold compute_H
    rw [abs_toC]
    exact le_trans (Complex.abs.abs_abv_sub_le_abv_sub _ _) hmain
  calc |compute_H zeta t h - Complex.abs a1|
      ≤ (4 * (C * (h : ℝ) ^ 4 / 16) + C * (h : ℝ) ^ 4) / 3 := hfinal
    _ = 5 / 12 * C * (h : ℝ) ^ 4 := by ring

theorem richardson_fourth_order_witness :
    |compute_H (fun z => z) 0 1 - Complex.abs Complex.I|
      ≤ 5 / 12 * 0 * ((1 : ℚ) : ℝ) ^ 4 :=
  richardson_fourth_order (fun z => z) 0 1 1 0 (1/2) Complex.I 0 0 0
    le_rfl one_pos le_rfl pyHalf_one
    (fun δ _ => by
      have hpt : ((fun z => z) (⟨1/2, 0 + δ⟩ : MPC)).toC
          = taylorPoly (1/2) Complex.I 0 0 0 δ := by
        simp [MPC.toC, taylorPoly, Complex.ext_iff, Complex.mul_re,
          Complex.mul_im]
      rw [hpt, sub_self]
      simp)
